import Mathlib

/-!
Verification of the MiniGit specification against a shallow embedding of
src/MiniGit.cpp.  Pure functions of the source become Lean functions;
the mutable repository (object store, refs, HEAD, index, staging map,
working tree) becomes an explicit state record threaded through each
operation; C++ exceptions become Except results.  The collaborators that
are not part of src (FileUtils, Hashing, Commit.h) are modelled from the
spec, as marked on each such definition.
-/

namespace MiniGit

/-- Character-list test used to embed std::string rfind(p, 0) == 0. -/
def isPrefixCL : List Char → List Char → Bool
  | [], _ => true
  | _ :: _, [] => false
  | a :: as, b :: bs => if a = b then isPrefixCL as bs else false

/-- Embeds headContent.rfind(p, 0) == 0 from MiniGit.cpp line 338. -/
def strStartsWith (s p : String) : Bool := isPrefixCL p.data s.data

/-- Embeds std::string substr(n) on ASCII content (byte = char here). -/
def strDrop (s : String) (n : Nat) : String := ⟨s.data.drop n⟩

/-- Lexicographic comparison of char lists, as std::string operator< on ASCII bytes. -/
def listStrLt : List Char → List Char → Bool
  | [], [] => false
  | [], _ :: _ => true
  | _ :: _, [] => false
  | a :: as, b :: bs =>
    if a.toNat < b.toNat then true
    else if b.toNat < a.toNat then false
    else listStrLt as bs

/-- Embeds std::string operator< (used by std::set ordering). -/
def strLt (s t : String) : Bool := listStrLt s.data t.data

/-- Insertion into a sorted duplicate-free list of strings: the effect of
std::set insert in MiniGit.cpp lines 204-207. -/
def setInsert (x : String) : List String → List String
  | [] => [x]
  | y :: ys => if x = y then y :: ys else if strLt x y then x :: y :: ys else y :: setInsert x ys

/-- Association-list lookup standing for unordered_map count/at. -/
def lookupA (m : List (String × String)) (k : String) : Option String :=
  match m with
  | [] => none
  | (k0, v0) :: rest => if k0 = k then some v0 else lookupA rest k

/-- Association-list update standing for unordered_map operator[] assignment. -/
def insertA (m : List (String × String)) (k v : String) : List (String × String) :=
  match m with
  | [] => [(k, v)]
  | (k0, v0) :: rest => if k0 = k then (k0, v) :: rest else (k0, v0) :: insertA rest k v

/-- Association-list removal standing for unordered_map erase. -/
def eraseA (m : List (String × String)) (k : String) : List (String × String) :=
  match m with
  | [] => []
  | (k0, v0) :: rest => if k0 = k then rest else (k0, v0) :: eraseA rest k

/-- Keys of an association list. -/
def keysA (m : List (String × String)) : List String := m.map Prod.fst

/-- Split a char list into groups at a separator character, keeping empty groups
(the grouping underlying repeated std::getline). -/
def splitCharList (c : Char) : List Char → List (List Char)
  | [] => [[]]
  | x :: xs =>
    if x = c then [] :: splitCharList c xs
    else
      match splitCharList c xs with
      | [] => [[x]]
      | g :: gs => (x :: g) :: gs

/-- Embeds the `while (getline(ss, line))` idiom of MiniGit.cpp (lines 378,
462, 465): every newline ends a line, and a final segment is produced only
when nonempty. -/
def splitLines (s : String) : List String :=
  let gs := splitCharList (Char.ofNat 10) s.data
  let gs := if gs.getLast? = some [] then gs.dropLast else gs
  gs.map (fun l => ⟨l⟩)

/-- Join char-list groups with a separator character. -/
def joinWithChar (c : Char) : List (List Char) → List Char
  | [] => []
  | [g] => g
  | g :: gs => g ++ c :: joinWithChar c gs

/-- A one-character string holding the ASCII apostrophe (used in the merge
commit message built at MiniGit.cpp line 259). -/
def squote : String := String.singleton (Char.ofNat 39)

/-- Modelled from the spec: the Commit record of section 3 (Commit.h is not
under src/): message, creation timestamp, ordered parent digests, and the
complete path-to-blob-digest snapshot.  The digest of a commit is computed
by an external hash of its serialized form, so it is passed to the
operations as a function argument. -/
structure CommitNode where
  message : String
  timestamp : Nat
  parents : List String
  fileBlobs : List (String × String)
deriving DecidableEq, Repr

/-- Modelled from the spec: the default-constructed CommitNode used at
MiniGit.cpp line 197 when no common ancestor exists: no parents, no files. -/
def emptyCommitNode : CommitNode := ⟨"", 0, [], []⟩

/-- The mutable repository state: the digest-keyed commit records and blob
contents of .minigit/objects (split into two maps because commit
serialization lives in the Commit.h collaborator, modelled from the spec
with round-trip fidelity), the refs keyspace keyed by paths such as
"refs/heads/master", the literal content of the HEAD file, the persisted
index file content, the in-memory staging map, and the working tree. -/
structure RepoState where
  commits : String → Option CommitNode
  objects : String → Option String
  refs : String → Option String
  headFile : String
  indexFile : String
  staging : List (String × String)
  workTree : String → Option String

/-- Working-tree write (FileUtils::writeToFile on a tracked path). -/
def wtWrite (wt : String → Option String) (f c : String) : String → Option String :=
  fun k => if k = f then some c else wt k

/-- Working-tree removal (fs::remove at MiniGit.cpp line 244). -/
def wtRemove (wt : String → Option String) (f : String) : String → Option String :=
  fun k => if k = f then none else wt k

/-- Embeds MiniGit::getBlobContent (lines 443-449): read the object stored
under a blob digest, throwing when it is absent. -/
def getBlobContent (objects : String → Option String) (blobHash : String) : Except String String :=
  match objects blobHash with
  | some content => .ok content
  | none => .error ("Blob not found: " ++ blobHash)

/-- Embeds the blob-write portion of MiniGit::add (lines 66-73), which is the
put operation of the spec object store: compute the digest, write the
content under it only when absent, return the digest. -/
def put (hash : String → String) (objects : String → Option String) (content : String) :
    String × (String → Option String) :=
  let h := hash content
  match objects h with
  | some _ => (h, objects)
  | none => (h, fun k => if k = h then some content else objects k)

/-- Embeds MiniGit::loadCommit (lines 364-370). -/
def loadCommit (st : RepoState) (commitHash : String) : Except String CommitNode :=
  match st.commits commitHash with
  | some c => .ok c
  | none => .error ("Commit not found: " ++ commitHash)

/-- Embeds MiniGit::saveIndex serialization (lines 389-397). -/
def saveIndexStr (staging : List (String × String)) : String :=
  staging.foldl (fun acc fh => acc ++ fh.1 ++ " " ++ fh.2 ++ "\n") ""

/-- Embeds MiniGit::loadIndex parsing (lines 372-387): each line is split at
its first space into a path and a digest; lines without a space are skipped. -/
def loadIndexStr (content : String) : List (String × String) :=
  (splitLines content).foldl
    (fun acc line =>
      match splitCharList (Char.ofNat 32) line.data with
      | [] => acc
      | [_] => acc
      | f :: rest => insertA acc ⟨f⟩ ⟨joinWithChar (Char.ofNat 32) rest⟩)
    []

/-- Embeds MiniGit::getHeadCommitHash (lines 332-346): a HEAD of the form
"ref: X" is resolved through the refs keyspace (an unreadable ref file
yields the empty digest), anything else is a detached digest. -/
def getHeadCommitHash (st : RepoState) : String :=
  if strStartsWith st.headFile "ref: " then
    match st.refs (strDrop st.headFile 5) with
    | some h => h
    | none => ""
  else st.headFile

/-- Embeds MiniGit::updateHead (lines 348-362). -/
def updateHead (commitHash : String) (isBranch : Bool) (branchName : String)
    (st : RepoState) : RepoState :=
  if isBranch then
    { st with
      refs := fun k => if k = "refs/heads/" ++ branchName then some commitHash else st.refs k,
      headFile := "ref: refs/heads/" ++ branchName }
  else
    { st with headFile := commitHash }

/-- Embeds MiniGit::add (lines 56-78): read the file, store its blob, stage
it, persist the index. -/
def add (hash : String → String) (filename : String) (st : RepoState) :
    Except String RepoState :=
  match st.workTree filename with
  | none => .error ("File not found: " ++ filename)
  | some content =>
    let hs := put hash st.objects content
    let staging := insertA st.staging filename hs.1
    .ok { st with objects := hs.2, staging := staging, indexFile := saveIndexStr staging }

/-- Embeds MiniGit::commit (lines 80-102): a no-op on empty staging;
otherwise build the commit, store it, update HEAD via
updateHead(hash, true, "master") exactly as line 97 does, then clear and
persist the staging map. -/
def commit (chash : CommitNode → String) (ts : Nat) (message : String)
    (st : RepoState) : RepoState :=
  if st.staging = [] then st
  else
    let parentHash := getHeadCommitHash st
    let parents := if parentHash = "" then [] else [parentHash]
    let node : CommitNode := ⟨message, ts, parents, st.staging⟩
    let d := chash node
    let st1 := { st with commits := fun k => if k = d then some node else st.commits k }
    let st2 := updateHead d true "master" st1
    { st2 with staging := [], indexFile := saveIndexStr [] }

/-- Embeds the checkout file-restoring loop (MiniGit.cpp lines 162-165):
each blob is read (throwing when absent) and written to the working tree. -/
def writeFilesToWorkTree (objects : String → Option String) :
    List (String × String) → (String → Option String) →
      Except String (String → Option String)
  | [], wt => .ok wt
  | (f, h) :: rest, wt =>
    match objects h with
    | none => .error ("Blob not found: " ++ h)
    | some content => writeFilesToWorkTree objects rest (wtWrite wt f content)

/-- Embeds the tail of MiniGit::checkout (lines 161-169) once the target
digest and branch-ness are resolved.  The staging map is cleared in memory
only: the source performs no saveIndex here. -/
def checkoutAt (targetHash : String) (isBranch : Bool) (branchLabel : String)
    (st : RepoState) : Except String RepoState :=
  match st.commits targetHash with
  | none => .error ("Commit not found: " ++ targetHash)
  | some cn =>
    match writeFilesToWorkTree st.objects cn.fileBlobs st.workTree with
    | .error e => .error e
    | .ok wt =>
      let st1 := updateHead targetHash isBranch branchLabel { st with workTree := wt }
      .ok { st1 with staging := [] }

/-- Embeds MiniGit::checkout (lines 142-170): a branch name resolves through
its ref file, otherwise the argument must load as a commit digest. -/
def checkout (target : String) (st : RepoState) : Except String RepoState :=
  match st.refs ("refs/heads/" ++ target) with
  | some h => checkoutAt h true target st
  | none =>
    match st.commits target with
    | some _ => checkoutAt target false "" st
    | none => .error ("Invalid branch or commit: " ++ target)

/-- Membership test on a visited map, as map::count in MiniGit::findLCA. -/
def containsKey (v : List (String × Nat)) (x : String) : Bool :=
  match v with
  | [] => false
  | e :: es => if e.1 = x then true else containsKey es x

/-- Embeds the parent loop of MiniGit::findLCA (lines 415-420 and 430-435):
each parent not yet visited is recorded at depth + 1 and pushed on the
queue. -/
def pushParents (d : Nat) (ps : List String)
    (vq : List (String × Nat) × List (String × Nat)) :
    List (String × Nat) × List (String × Nat) :=
  ps.foldl
    (fun vq p =>
      if containsKey vq.1 p then vq
      else (vq.1 ++ [(p, d + 1)], vq.2 ++ [(p, d + 1)]))
    vq

/-- Embeds the try/catch expansion of one popped node in MiniGit::findLCA
(lines 413-421): a commit that cannot be loaded contributes no parents and
the exception is swallowed. -/
def expand (commits : String → Option CommitNode) (cur : String) (d : Nat)
    (v q : List (String × Nat)) : List (String × Nat) × List (String × Nat) :=
  match commits cur with
  | none => (v, q)
  | some cn => pushParents d cn.parents (v, q)

/-- Embeds one side of a round of MiniGit::findLCA (lines 409-422): when the
queue is nonempty, pop its front; return it when the other side has visited
it, otherwise expand it. -/
def lcaHalf (commits : String → Option CommitNode)
    (v q vOther : List (String × Nat)) :
    Sum String (List (String × Nat) × List (String × Nat)) :=
  match q with
  | [] => .inr (v, q)
  | (cur, d) :: qRest =>
    if containsKey vOther cur then .inl cur
    else .inr (expand commits cur d v qRest)

/-- Embeds the while loop of MiniGit::findLCA (lines 408-440): alternate one
pop-and-expand per side, the second side checking against the first side
visited set as already updated this round; return the empty digest once both
queues are exhausted.  The fuel argument bounds the number of rounds, which
the source leaves implicit in the finiteness of the on-disk store. -/
def lcaLoop (commits : String → Option CommitNode) :
    Nat → List (String × Nat) → List (String × Nat) →
      List (String × Nat) → List (String × Nat) → String
  | 0, _, _, _, _ => ""
  | fuel + 1, v1, q1, v2, q2 =>
    if q1 = [] ∧ q2 = [] then ""
    else
      match lcaHalf commits v1 q1 v2 with
      | .inl r => r
      | .inr vq1 =>
        match lcaHalf commits v2 q2 vq1.1 with
        | .inl r => r
        | .inr vq2 => lcaLoop commits fuel vq1.1 vq1.2 vq2.1 vq2.2

/-- Embeds MiniGit::findLCA (lines 399-441): bidirectional BFS seeded with
the two start digests at depth 0. -/
def findLCA (commits : String → Option CommitNode) (fuel : Nat)
    (commitHash1 commitHash2 : String) : String :=
  lcaLoop commits fuel [(commitHash1, 0)] [(commitHash1, 0)]
    [(commitHash2, 0)] [(commitHash2, 0)]

/-- The outcome of MiniGit::merge: the early equal-tips return (line 187),
the conflict return (line 255), or a successful merge commit (line 267). -/
inductive MergeResult where
  | alreadyUpToDate
  | conflicted
  | merged (digest : String)
deriving DecidableEq, Repr

/-- The evolving state of the merge classification loop: the merged map
(initialized to the current tip files), the conflict flag, and the working
tree being written. -/
structure MergeScan where
  merged : List (String × String)
  conflicts : Bool
  wt : String → Option String

/-- Embeds the per-file three-way classification of MiniGit::merge
(lines 209-251), in source order: new-on-target, target-changed,
both-changed conflict, target-deleted; any other combination leaves the
state untouched.  Absence is the empty-string sentinel, exactly as the
count/at reads at lines 210-212 produce it. -/
def mergeFile (objects : String → Option String) (branchName : String)
    (lcaFiles targetFiles : List (String × String))
    (ms : MergeScan) (file : String) : Except String MergeScan :=
  let lcaBlob := (lookupA lcaFiles file).getD ""
  let currentBlob := (lookupA ms.merged file).getD ""
  let targetBlob := (lookupA targetFiles file).getD ""
  if lcaBlob = "" ∧ currentBlob = "" then
    match getBlobContent objects targetBlob with
    | .error e => .error e
    | .ok content =>
      .ok { ms with merged := insertA ms.merged file targetBlob,
                    wt := wtWrite ms.wt file content }
  else if lcaBlob ≠ "" ∧ currentBlob = lcaBlob ∧ targetBlob ≠ lcaBlob then
    match getBlobContent objects targetBlob with
    | .error e => .error e
    | .ok content =>
      .ok { ms with merged := insertA ms.merged file targetBlob,
                    wt := wtWrite ms.wt file content }
  else if lcaBlob ≠ "" ∧ currentBlob ≠ lcaBlob ∧ targetBlob ≠ lcaBlob ∧
      currentBlob ≠ targetBlob then
    match getBlobContent objects currentBlob with
    | .error e => .error e
    | .ok currentContent =>
      match getBlobContent objects targetBlob with
      | .error e => .error e
      | .ok targetContent =>
        .ok { ms with
              wt := wtWrite ms.wt file
                ("<<<<<<< HEAD\n" ++ currentContent ++ "=======\n" ++
                 targetContent ++ ">>>>>>> " ++ branchName ++ "\n"),
              conflicts := true }
  else if lcaBlob ≠ "" ∧ currentBlob ≠ "" ∧ targetBlob = "" then
    if lcaBlob = currentBlob then
      .ok { ms with merged := eraseA ms.merged file, wt := wtRemove ms.wt file }
    else
      .ok { ms with conflicts := true }
  else
    .ok ms

/-- Embeds MiniGit::merge after the three snapshots are loaded
(lines 199-268): build the sorted file set, classify every file, then
either stop on conflicts or store the merge commit and update HEAD via
updateHead(hash, true, "master") exactly as line 266 does. -/
def mergeCore (chash : CommitNode → String) (ts : Nat) (branchName : String)
    (st : RepoState) (currentHash targetHash : String)
    (currentCommit targetCommit lcaCommit : CommitNode) :
    Except String (MergeResult × RepoState) :=
  let lcaFiles := lcaCommit.fileBlobs
  let targetFiles := targetCommit.fileBlobs
  let allFiles :=
    (keysA currentCommit.fileBlobs ++ keysA targetFiles ++ keysA lcaFiles).foldl
      (fun s k => setInsert k s) []
  match allFiles.foldlM (mergeFile st.objects branchName lcaFiles targetFiles)
      ⟨currentCommit.fileBlobs, false, st.workTree⟩ with
  | .error e => .error e
  | .ok ms =>
    if ms.conflicts then .ok (.conflicted, { st with workTree := ms.wt })
    else
      let node : CommitNode :=
        ⟨"Merge branch " ++ squote ++ branchName ++ squote, ts,
          [currentHash, targetHash], ms.merged⟩
      let d := chash node
      let st1 := { st with
                   commits := fun k => if k = d then some node else st.commits k,
                   workTree := ms.wt }
      .ok (.merged d, updateHead d true "master" st1)

/-- Embeds MiniGit::merge (lines 174-268). -/
def merge (chash : CommitNode → String) (ts : Nat) (fuel : Nat)
    (branchName : String) (st : RepoState) :
    Except String (MergeResult × RepoState) :=
  let currentHash := getHeadCommitHash st
  if currentHash = "" then .error "No commits to merge from"
  else
    match st.refs ("refs/heads/" ++ branchName) with
    | none => .error ("Branch not found: " ++ branchName)
    | some targetHash =>
      if currentHash = targetHash then .ok (.alreadyUpToDate, st)
      else
        let lcaHash := findLCA st.commits fuel currentHash targetHash
        match loadCommit st currentHash with
        | .error e => .error e
        | .ok currentCommit =>
          match loadCommit st targetHash with
          | .error e => .error e
          | .ok targetCommit =>
            match (if lcaHash = "" then .ok emptyCommitNode else loadCommit st lcaHash) with
            | .error e => .error e
            | .ok lcaCommit =>
              mergeCore chash ts branchName st currentHash targetHash
                currentCommit targetCommit lcaCommit

/-- Embeds the cursor walk of MiniGit::printDiff (lines 472-488), emitting
one output line per cout call, cursor-indexed exactly as the source while
loop. -/
def diffLoop (old new : List String) (i j : Nat) : List String :=
  if hi : i < old.length then
    if hj : j < new.length then
      if old.get ⟨i, hi⟩ = new.get ⟨j, hj⟩ then
        ("  " ++ old.get ⟨i, hi⟩) :: diffLoop old new (i + 1) (j + 1)
      else
        ("- " ++ old.get ⟨i, hi⟩) :: ("+ " ++ new.get ⟨j, hj⟩) ::
          diffLoop old new (i + 1) (j + 1)
    else ("- " ++ old.get ⟨i, hi⟩) :: diffLoop old new (i + 1) j
  else if hj : j < new.length then
    ("+ " ++ new.get ⟨j, hj⟩) :: diffLoop old new i (j + 1)
  else []
termination_by (old.length - i) + (new.length - j)
decreasing_by all_goals omega

/-- Embeds MiniGit::printDiff (lines 457-490) as the list of lines it prints:
the optional two-line header, the cursor walk, and the final blank line. -/
def printDiff (oldContent newContent filename : String) : List String :=
  let oldLines := splitLines oldContent
  let newLines := splitLines newContent
  (if filename = "" then [] else ["--- a/" ++ filename, "+++ b/" ++ filename]) ++
    diffLoop oldLines newLines 0 0 ++ [""]

/-- Tags of the diff lines named by section 4.3 of the spec. -/
inductive DiffTag where
  | context
  | removed
  | added
deriving DecidableEq, Repr

/-- Modelled from the spec: the reference greedy two-cursor walk of
section 4.3, stated over the remaining suffixes of the two line lists:
equal heads emit a context line and advance both sides; otherwise a removed
line is emitted when the old side is nonempty and an added line when the new
side is nonempty, both advancing in the same step. -/
def specWalk : List String → List String → List (DiffTag × String)
  | [], [] => []
  | [], b :: bs => (DiffTag.added, b) :: specWalk [] bs
  | a :: as, [] => (DiffTag.removed, a) :: specWalk as []
  | a :: as, b :: bs =>
    if a = b then (DiffTag.context, a) :: specWalk as bs
    else (DiffTag.removed, a) :: (DiffTag.added, b) :: specWalk as bs

/-- Rendering of a tagged line with the markers printDiff uses. -/
def renderTag : DiffTag × String → String
  | (DiffTag.context, s) => "  " ++ s
  | (DiffTag.removed, s) => "- " ++ s
  | (DiffTag.added, s) => "+ " ++ s

/-- Modelled from the spec: the blob store is content addressed, so every
stored object sits under the digest of its own content (section 3,
Blob). -/
def objectsWellFormed (hash : String → String) (objects : String → Option String) : Prop :=
  ∀ k c, objects k = some c → k = hash c

/-- Reachability along parent links through the commit store: the digests an
ancestor search may legitimately return for a given start digest. -/
inductive Reachable (commits : String → Option CommitNode) : String → String → Prop
  | refl (x : String) : Reachable commits x x
  | step {x y p : String} {cn : CommitNode} :
      Reachable commits x y → commits y = some cn → p ∈ cn.parents →
      Reachable commits x p

/-- A three-commit store: c1 is the root, c2 and c3 are children of c1.
Current branch master sits at c2; the target branch holds c3 (or c1). -/
def chainCommits : String → Option CommitNode :=
  fun k =>
    if k = "c1" then some ⟨"m1", 0, [], [("f", "x")]⟩
    else if k = "c2" then some ⟨"m2", 1, ["c1"], [("f", "x")]⟩
    else if k = "c3" then some ⟨"m3", 2, ["c1"], []⟩
    else none

/-- Repository used for the target-deleted merge run: ancestor c1 and current
c2 both hold f at blob x, the feature tip c3 deleted f. -/
def exStDel : RepoState :=
  { commits := chainCommits
    objects := fun k => if k = "x" then some "X" else none
    refs := fun k =>
      if k = "refs/heads/master" then some "c2"
      else if k = "refs/heads/feature" then some "c3"
      else none
    headFile := "ref: refs/heads/master"
    indexFile := ""
    staging := []
    workTree := fun _ => none }

/-- Same history but the current branch modified f (blob y at c2), while the
feature tip c3 deleted it. -/
def exStDelMod : RepoState :=
  { exStDel with
    commits := fun k =>
      if k = "c2" then some ⟨"m2", 1, ["c1"], [("f", "y")]⟩ else chainCommits k
    objects := fun k => if k = "x" then some "X" else if k = "y" then some "Y" else none }

/-- Both sides changed f differently (current y, target z, ancestor x): the
content-conflict run. -/
def exStConf : RepoState :=
  { exStDel with
    commits := fun k =>
      if k = "c2" then some ⟨"m2", 1, ["c1"], [("f", "y")]⟩
      else if k = "c3" then some ⟨"m3", 2, ["c1"], [("f", "z")]⟩
      else chainCommits k
    objects := fun k =>
      if k = "x" then some "X" else if k = "y" then some "Y"
      else if k = "z" then some "Z" else none }

/-- The state after the content-conflict merge run. -/
def exStConfOut : RepoState :=
  (((merge (fun _ => "d4") 7 5 "feature" exStConf).toOption).map Prod.snd).getD exStConf

/-- Repository whose HEAD is on branch dev (tip c2) with master and a feature
branch (tip c1) also present: the conflict-free merge and the commit both
run from dev here. -/
def exStDev : RepoState :=
  { commits := fun k =>
      if k = "c1" then some ⟨"m1", 0, [], []⟩
      else if k = "c2" then some ⟨"m2", 1, ["c1"], []⟩
      else none
    objects := fun _ => none
    refs := fun k =>
      if k = "refs/heads/master" then some "c0"
      else if k = "refs/heads/dev" then some "c2"
      else if k = "refs/heads/feature" then some "c1"
      else none
    headFile := "ref: refs/heads/dev"
    indexFile := "a ha\n"
    staging := [("a", "ha")]
    workTree := fun _ => none }

/-- The state after the conflict-free merge run from branch dev. -/
def exStDevOut : RepoState :=
  (((merge (fun _ => "d4") 7 5 "feature" exStDev).toOption).map Prod.snd).getD exStDev

/-- Repository on branch master at tip c1, used for the equal-tips merge. -/
def exStEq : RepoState :=
  { commits := fun _ => none
    objects := fun _ => none
    refs := fun k => if k = "refs/heads/master" then some "c1" else none
    headFile := "ref: refs/heads/master"
    indexFile := ""
    staging := []
    workTree := fun _ => none }

/-- Repository with a staged file and a branch dev at a files-less commit,
used for the checkout runs. -/
def exStStage : RepoState :=
  { commits := fun k => if k = "c1" then some ⟨"m1", 0, [], []⟩ else none
    objects := fun _ => none
    refs := fun k => if k = "refs/heads/dev" then some "c1" else none
    headFile := "ref: refs/heads/master"
    indexFile := "a h1\n"
    staging := [("a", "h1")]
    workTree := fun _ => none }

/-- The state after checking out branch dev from exStStage. -/
def exStStageOut : RepoState :=
  ((checkout "dev" exStStage).toOption).getD exStStage

/-- Linear chain store for the ancestor-search witness: cc points to cb,
cb points to ca, ca is the root. -/
def lcaChainCommits : String → Option CommitNode :=
  fun k =>
    if k = "cc" then some ⟨"", 0, ["cb"], []⟩
    else if k = "cb" then some ⟨"", 0, ["ca"], []⟩
    else if k = "ca" then some ⟨"", 0, [], []⟩
    else none

theorem updateHead_indexFile (c : String) (b : Bool) (n : String) (st : RepoState) :
    (updateHead c b n st).indexFile = st.indexFile := by
  unfold updateHead; split <;> rfl

theorem updateHead_staging (c : String) (b : Bool) (n : String) (st : RepoState) :
    (updateHead c b n st).staging = st.staging := by
  unfold updateHead; split <;> rfl

theorem checkoutAt_clears_staging (targetHash : String) (b : Bool) (lbl : String)
    (st st2 : RepoState) (h : checkoutAt targetHash b lbl st = .ok st2) :
    st2.staging = [] ∧ st2.indexFile = st.indexFile := by
  unfold checkoutAt at h
  split at h
  · exact absurd h (by simp)
  · split at h
    · exact absurd h (by simp)
    · injection h with h2
      subst h2
      refine ⟨rfl, ?_⟩
      rw [updateHead_indexFile]

/-- C10: invoking commit with an empty staging map leaves the entire
repository state unchanged: no commit object, no reference or HEAD motion,
no index write. -/
theorem commit_empty_staging_noop (chash : CommitNode → String) (ts : Nat)
    (msg : String) (st : RepoState) (h : st.staging = []) :
    commit chash ts msg st = st := by
  unfold commit; rw [if_pos h]

/-- Witness for commit_empty_staging_noop at a concrete repository with an
empty staging map. -/
theorem commit_empty_staging_noop_witness :
    commit (fun _ => "d0") 0 "m" exStEq = exStEq :=
  commit_empty_staging_noop (fun _ => "d0") 0 "m" exStEq rfl

/-- C6: when the current tip equals the target tip, merge answers
AlreadyUpToDate and returns the state entirely unchanged. -/
theorem merge_equal_tips_no_writes (chash : CommitNode → String) (ts fuel : Nat)
    (branchName : String) (st : RepoState)
    (h1 : getHeadCommitHash st ≠ "")
    (h2 : st.refs ("refs/heads/" ++ branchName) = some (getHeadCommitHash st)) :
    merge chash ts fuel branchName st = .ok (.alreadyUpToDate, st) := by
  unfold merge
  rw [h2]
  simp [h1]

/-- Witness for merge_equal_tips_no_writes on a concrete repository whose
master tip is merged into itself. -/
theorem merge_equal_tips_no_writes_witness :
    merge (fun _ => "d0") 0 5 "master" exStEq = .ok (.alreadyUpToDate, exStEq) :=
  merge_equal_tips_no_writes (fun _ => "d0") 0 5 "master" exStEq (by decide) rfl

/-- C7: storing a content through the blob write of add yields its hash as
digest, reading that digest back yields exactly the content, and a second
store of the same content returns the same digest with the object store
untouched. -/
theorem put_content_addressing (hash : String → String)
    (objects : String → Option String) (c : String)
    (hinj : Function.Injective hash)
    (hwf : objectsWellFormed hash objects) :
    (put hash objects c).1 = hash c ∧
    getBlobContent (put hash objects c).2 (put hash objects c).1 = .ok c ∧
    put hash (put hash objects c).2 c = put hash objects c := by
  unfold put getBlobContent
  cases hoc : objects (hash c) with
  | none => simp [hoc]
  | some c0 =>
    have hc0 : c = c0 := hinj (hwf _ _ hoc)
    subst hc0
    simp [hoc]

/-- Witness for put_content_addressing with the identity digest on the empty
store. -/
theorem put_content_addressing_witness :
    (put (fun s => s) (fun _ => none) "blob").1 = "blob" ∧
    getBlobContent (put (fun s => s) (fun _ => none) "blob").2
      (put (fun s => s) (fun _ => none) "blob").1 = .ok "blob" ∧
    put (fun s => s) (put (fun s => s) (fun _ => none) "blob").2 "blob" =
      put (fun s => s) (fun _ => none) "blob" :=
  put_content_addressing (fun s => s) (fun _ => none) "blob"
    (fun _ _ h => h) (fun _ _ h => Option.noConfusion h)

/-- C2: a merge that reports a conflict stops after the classification loop:
the commit store, all references, HEAD, the index file and the staging map
are exactly those of the incoming state. -/
theorem merge_conflicted_writes_nothing (chash : CommitNode → String)
    (ts fuel : Nat) (branchName : String) (st st2 : RepoState)
    (h : merge chash ts fuel branchName st = .ok (.conflicted, st2)) :
    st2.commits = st.commits ∧ st2.refs = st.refs ∧
    st2.headFile = st.headFile ∧ st2.indexFile = st.indexFile ∧
    st2.staging = st.staging := by
  simp only [merge, mergeCore] at h
  repeat' split at h
  all_goals first
    | (injection h with h2; injection h2 with h3 h4; subst h4;
       exact ⟨rfl, rfl, rfl, rfl, rfl⟩)
    | (exact absurd h (by simp))

/-- Witness for merge_conflicted_writes_nothing on the concrete
content-conflict repository. -/
theorem merge_conflicted_writes_nothing_witness :
    exStConfOut.commits = exStConf.commits ∧ exStConfOut.refs = exStConf.refs ∧
    exStConfOut.headFile = exStConf.headFile ∧
    exStConfOut.indexFile = exStConf.indexFile ∧
    exStConfOut.staging = exStConf.staging :=
  merge_conflicted_writes_nothing (fun _ => "d4") 7 5 "feature" exStConf
    exStConfOut rfl

/-- C8 counterexample: checking out branch dev from a repository with a
staged entry succeeds and clears the in-memory staging map, yet the
persisted index file still parses to the pre-checkout staging entries, so a
reloading invocation does not observe an empty staging map. -/
theorem checkout_keeps_index_file_counterexample :
    checkout "dev" exStStage = .ok exStStageOut ∧
    exStStageOut.staging = [] ∧
    loadIndexStr exStStageOut.indexFile = [("a", "h1")] :=
  ⟨rfl, rfl, rfl⟩

/-- C8 amended: after every successful commit the staging map is empty both
in memory and in the persisted index file (which reloads as empty), while
after every checkout only the in-memory staging map is cleared and the
persisted index file is left exactly as it was. -/
theorem staging_cleared_commit_and_checkout (chash : CommitNode → String)
    (ts : Nat) (msg : String) (st : RepoState) (hne : st.staging ≠ []) :
    (commit chash ts msg st).staging = [] ∧
    (commit chash ts msg st).indexFile = "" ∧
    loadIndexStr (commit chash ts msg st).indexFile = [] ∧
    ∀ target st2, checkout target st = .ok st2 →
      st2.staging = [] ∧ st2.indexFile = st.indexFile := by
  refine ⟨?_, ?_, ?_, ?_⟩
  · simp only [commit, if_neg hne]
  · simp only [commit, if_neg hne]
    rfl
  · simp only [commit, if_neg hne]
    rfl
  · intro target st2 h
    unfold checkout at h
    split at h
    · exact checkoutAt_clears_staging _ _ _ _ _ h
    · split at h
      · exact checkoutAt_clears_staging _ _ _ _ _ h
      · exact absurd h (by simp)

/-- Witness for staging_cleared_commit_and_checkout on the concrete staged
repository, run through both the commit and the checkout conjuncts. -/
theorem staging_cleared_commit_and_checkout_witness :
    (commit (fun _ => "d9") 0 "m" exStStage).staging = [] ∧
    exStStageOut.staging = [] ∧ exStStageOut.indexFile = exStStage.indexFile :=
  ⟨(staging_cleared_commit_and_checkout (fun _ => "d9") 0 "m" exStStage
      (by decide)).1,
   ((staging_cleared_commit_and_checkout (fun _ => "d9") 0 "m" exStStage
      (by decide)).2.2.2 "dev" exStStageOut rfl).1,
   ((staging_cleared_commit_and_checkout (fun _ => "d9") 0 "m" exStStage
      (by decide)).2.2.2 "dev" exStStageOut rfl).2⟩

/-- C1: on the three-way table rows where the target side deleted a file
(target blob absent while ancestor and current are present), the merge does
not delete the file or flag a delete-modify conflict: the take-target branch
at line 221 (when current equals ancestor) and the content-conflict branch
at line 228 (when current differs) capture those rows first, because their
conditions only require the target blob to differ from the ancestor blob,
and both then call getBlobContent on the empty sentinel, so the whole merge
aborts with a NotFound failure and the delete branch at lines 240-250 is
unreachable. -/
theorem merge_target_delete_raises_notfound :
    merge (fun _ => "d4") 7 5 "feature" exStDel = .error "Blob not found: " ∧
    merge (fun _ => "d4") 7 5 "feature" exStDelMod = .error "Blob not found: " :=
  ⟨rfl, rfl⟩

/-- C3: with HEAD symbolically on branch dev, a successful conflict-free
merge does not advance dev: updateHead is called with the hardcoded name
master (line 266), so the merge digest lands in the master reference, dev
keeps its old tip, and HEAD is repointed at master; the commit operation
(line 97) misbehaves the same way. -/
theorem merge_and_commit_update_master_not_current_branch :
    merge (fun _ => "d4") 7 5 "feature" exStDev = .ok (.merged "d4", exStDevOut) ∧
    exStDevOut.refs "refs/heads/dev" = some "c2" ∧
    exStDevOut.refs "refs/heads/master" = some "d4" ∧
    exStDevOut.headFile = "ref: refs/heads/master" ∧
    (commit (fun _ => "d5") 3 "msg" exStDev).refs "refs/heads/dev" = some "c2" ∧
    (commit (fun _ => "d5") 3 "msg" exStDev).refs "refs/heads/master" = some "d5" ∧
    (commit (fun _ => "d5") 3 "msg" exStDev).headFile = "ref: refs/heads/master" :=
  ⟨rfl, rfl, rfl, rfl, rfl, rfl, rfl⟩

/-- C4: on a linear first-parent chain A-B-C stored in the commit store, the
alternating bidirectional search returns A for findLCA(C, A) (the first node
popped from one frontier that the other side has already visited), and for
every digest x, findLCA(x, x) = x; the fuel argument only bounds the number
of loop rounds, three of which suffice on the chain and one on equal
digests. -/
theorem findLCA_linear_chain_and_self
    (commits : String → Option CommitNode) (A B C : String)
    (cA cB cC : CommitNode) (fuel : Nat)
    (hCA : C ≠ A) (hCB : C ≠ B) (hBA : B ≠ A)
    (hC : commits C = some cC) (hcp : cC.parents = [B])
    (hB : commits B = some cB) (hbp : cB.parents = [A])
    (hA : commits A = some cA) (hap : cA.parents = []) :
    findLCA commits (fuel + 3) C A = A ∧
    ∀ x : String, findLCA commits (fuel + 1) x x = x := by
  have hAC : A ≠ C := Ne.symm hCA
  have hBC : B ≠ C := Ne.symm hCB
  have hAB : A ≠ B := Ne.symm hBA
  constructor
  · unfold findLCA
    rw [show fuel + 3 = fuel + 2 + 1 from rfl]
    simp [lcaLoop, lcaHalf, expand, pushParents, containsKey,
      hC, hcp, hB, hbp, hA, hap, hCA, hCB, hBA, hAC, hBC, hAB]
  · intro x
    unfold findLCA
    simp [lcaLoop, lcaHalf, containsKey]

/-- Witness for findLCA_linear_chain_and_self on the concrete chain store
with digests ca, cb, cc. -/
theorem findLCA_linear_chain_and_self_witness :
    findLCA lcaChainCommits 3 "cc" "ca" = "ca" ∧
    findLCA lcaChainCommits 1 "cb" "cb" = "cb" :=
  ⟨(findLCA_linear_chain_and_self lcaChainCommits "ca" "cb" "cc"
      ⟨"", 0, [], []⟩ ⟨"", 0, ["ca"], []⟩ ⟨"", 0, ["cb"], []⟩ 0
      (by decide) (by decide) (by decide) rfl rfl rfl rfl rfl rfl).1,
   (findLCA_linear_chain_and_self lcaChainCommits "ca" "cb" "cc"
      ⟨"", 0, [], []⟩ ⟨"", 0, ["ca"], []⟩ ⟨"", 0, ["cb"], []⟩ 0
      (by decide) (by decide) (by decide) rfl rfl rfl rfl rfl rfl).2 "cb"⟩

theorem containsKey_mem {v : List (String × Nat)} {x : String}
    (h : containsKey v x = true) : ∃ e ∈ v, e.1 = x := by
  induction v with
  | nil => simp [containsKey] at h
  | cons e es ih =>
    rw [containsKey] at h
    by_cases he : e.1 = x
    · exact ⟨e, List.mem_cons_self e es, he⟩
    · rw [if_neg he] at h
      obtain ⟨e2, hmem, hx⟩ := ih h
      exact ⟨e2, List.mem_cons_of_mem e hmem, hx⟩

theorem pushParents_reach {commits : String → Option CommitNode} {root : String}
    (d : Nat) :
    ∀ (ps : List String), (∀ p ∈ ps, Reachable commits root p) →
      ∀ (vq : List (String × Nat) × List (String × Nat)),
        (∀ e ∈ vq.1, Reachable commits root e.1) →
        (∀ e ∈ vq.2, Reachable commits root e.1) →
        (∀ e ∈ (pushParents d ps vq).1, Reachable commits root e.1) ∧
        (∀ e ∈ (pushParents d ps vq).2, Reachable commits root e.1) := by
  intro ps
  induction ps with
  | nil => intro _ vq hv hq; exact ⟨hv, hq⟩
  | cons p ps ih =>
    intro hps vq hv hq
    have hstep : pushParents d (p :: ps) vq = pushParents d ps
        (if containsKey vq.1 p then vq
         else (vq.1 ++ [(p, d + 1)], vq.2 ++ [(p, d + 1)])) := rfl
    rw [hstep]
    have hp : Reachable commits root p := hps p (List.mem_cons_self p ps)
    have hps2 : ∀ q ∈ ps, Reachable commits root q :=
      fun q hq2 => hps q (List.mem_cons_of_mem p hq2)
    by_cases hc : containsKey vq.1 p = true
    · rw [if_pos hc]
      exact ih hps2 vq hv hq
    · rw [if_neg hc]
      refine ih hps2 _ ?_ ?_
      · intro e he
        rcases List.mem_append.mp he with h1 | h1
        · exact hv e h1
        · rw [List.mem_singleton.mp h1]
          exact hp
      · intro e he
        rcases List.mem_append.mp he with h1 | h1
        · exact hq e h1
        · rw [List.mem_singleton.mp h1]
          exact hp

theorem expand_reach {commits : String → Option CommitNode} {root cur : String}
    {d : Nat} {v q : List (String × Nat)}
    (hv : ∀ e ∈ v, Reachable commits root e.1)
    (hq : ∀ e ∈ q, Reachable commits root e.1)
    (hcur : Reachable commits root cur) :
    (∀ e ∈ (expand commits cur d v q).1, Reachable commits root e.1) ∧
    (∀ e ∈ (expand commits cur d v q).2, Reachable commits root e.1) := by
  unfold expand
  cases hcn : commits cur with
  | none => exact ⟨hv, hq⟩
  | some cn =>
    exact pushParents_reach d cn.parents
      (fun p hp => Reachable.step hcur hcn hp) (v, q) hv hq

theorem lcaHalf_inl_mem {commits : String → Option CommitNode}
    {v q vOther : List (String × Nat)} {r : String}
    (h : lcaHalf commits v q vOther = .inl r) :
    (∃ e ∈ q, e.1 = r) ∧ ∃ e ∈ vOther, e.1 = r := by
  cases q with
  | nil => simp [lcaHalf] at h
  | cons hd tl =>
    obtain ⟨cur, d⟩ := hd
    simp only [lcaHalf] at h
    by_cases hck : containsKey vOther cur = true
    · rw [if_pos hck] at h
      injection h with h2
      subst h2
      exact ⟨⟨(cur, d), List.mem_cons_self _ _, rfl⟩, containsKey_mem hck⟩
    · rw [if_neg hck] at h
      exact absurd h (by simp)

theorem lcaHalf_inr_cases {commits : String → Option CommitNode}
    {v q vOther v2 q2 : List (String × Nat)}
    (h : lcaHalf commits v q vOther = .inr (v2, q2)) :
    (v2 = v ∧ q2 = q) ∨
      ∃ cur d qRest, q = (cur, d) :: qRest ∧
        (v2, q2) = expand commits cur d v qRest := by
  cases q with
  | nil =>
    simp only [lcaHalf] at h
    injection h with h2
    left
    exact ⟨congrArg Prod.fst h2.symm, congrArg Prod.snd h2.symm⟩
  | cons hd tl =>
    obtain ⟨cur, d⟩ := hd
    simp only [lcaHalf] at h
    by_cases hck : containsKey vOther cur = true
    · rw [if_pos hck] at h
      exact absurd h (by simp)
    · rw [if_neg hck] at h
      injection h with h2
      exact Or.inr ⟨cur, d, tl, rfl, h2.symm⟩

theorem lcaLoop_reach (commits : String → Option CommitNode) (a b : String) :
    ∀ (fuel : Nat) (v1 q1 v2 q2 : List (String × Nat)),
      (∀ e ∈ v1, Reachable commits a e.1) →
      (∀ e ∈ q1, Reachable commits a e.1) →
      (∀ e ∈ v2, Reachable commits b e.1) →
      (∀ e ∈ q2, Reachable commits b e.1) →
      lcaLoop commits fuel v1 q1 v2 q2 = "" ∨
        (Reachable commits a (lcaLoop commits fuel v1 q1 v2 q2) ∧
         Reachable commits b (lcaLoop commits fuel v1 q1 v2 q2)) := by
  intro fuel
  induction fuel with
  | zero => intro v1 q1 v2 q2 _ _ _ _; left; rfl
  | succ n ih =>
    intro v1 q1 v2 q2 hv1 hq1 hv2 hq2
    by_cases hqe : q1 = [] ∧ q2 = []
    · left
      simp only [lcaLoop]
      rw [if_pos hqe]
    · cases hh1 : lcaHalf commits v1 q1 v2 with
      | inl r =>
        have hval : lcaLoop commits (n + 1) v1 q1 v2 q2 = r := by
          simp only [lcaLoop]
          rw [if_neg hqe, hh1]
        rw [hval]
        right
        obtain ⟨⟨e1, he1, hx1⟩, ⟨e2, he2, hx2⟩⟩ := lcaHalf_inl_mem hh1
        exact ⟨hx1 ▸ hq1 e1 he1, hx2 ▸ hv2 e2 he2⟩
      | inr vq1 =>
        obtain ⟨v1n, q1n⟩ := vq1
        have hside1 : (∀ e ∈ v1n, Reachable commits a e.1) ∧
            (∀ e ∈ q1n, Reachable commits a e.1) := by
          rcases lcaHalf_inr_cases hh1 with ⟨hveq, hqeq⟩ | ⟨cur, d, qRest, hq1eq, hexp⟩
          · rw [hveq, hqeq]; exact ⟨hv1, hq1⟩
          · have hcur : Reachable commits a cur := by
              have := hq1 (cur, d) (hq1eq ▸ List.mem_cons_self _ _)
              exact this
            have hqrest : ∀ e ∈ qRest, Reachable commits a e.1 :=
              fun e he => hq1 e (hq1eq ▸ List.mem_cons_of_mem _ he)
            have hres := @expand_reach commits a cur d v1 qRest hv1 hqrest hcur
            rw [show v1n = (expand commits cur d v1 qRest).1 from congrArg Prod.fst hexp,
                show q1n = (expand commits cur d v1 qRest).2 from congrArg Prod.snd hexp]
            exact hres
        cases hh2 : lcaHalf commits v2 q2 v1n with
        | inl r =>
          have hval : lcaLoop commits (n + 1) v1 q1 v2 q2 = r := by
            simp only [lcaLoop]
            rw [if_neg hqe]
            simp only [hh1]
            simp only [hh2]
          rw [hval]
          right
          obtain ⟨⟨e1, he1, hx1⟩, ⟨e2, he2, hx2⟩⟩ := lcaHalf_inl_mem hh2
          exact ⟨hx2 ▸ hside1.1 e2 he2, hx1 ▸ hq2 e1 he1⟩
        | inr vq2 =>
          obtain ⟨v2n, q2n⟩ := vq2
          have hside2 : (∀ e ∈ v2n, Reachable commits b e.1) ∧
              (∀ e ∈ q2n, Reachable commits b e.1) := by
            rcases lcaHalf_inr_cases hh2 with ⟨hveq, hqeq⟩ | ⟨cur, d, qRest, hq2eq, hexp⟩
            · rw [hveq, hqeq]; exact ⟨hv2, hq2⟩
            · have hcur : Reachable commits b cur :=
                hq2 (cur, d) (hq2eq ▸ List.mem_cons_self _ _)
              have hqrest : ∀ e ∈ qRest, Reachable commits b e.1 :=
                fun e he => hq2 e (hq2eq ▸ List.mem_cons_of_mem _ he)
              have hres := @expand_reach commits b cur d v2 qRest hv2 hqrest hcur
              rw [show v2n = (expand commits cur d v2 qRest).1 from congrArg Prod.fst hexp,
                  show q2n = (expand commits cur d v2 qRest).2 from congrArg Prod.snd hexp]
              exact hres
          have hval : lcaLoop commits (n + 1) v1 q1 v2 q2 =
              lcaLoop commits n v1n q1n v2n q2n := by
            simp only [lcaLoop]
            rw [if_neg hqe]
            simp only [hh1]
            simp only [hh2]
          rw [hval]
          exact ih v1n q1n v2n q2n hside1.1 hside1.2 hside2.1 hside2.2

/-- C9: on every commit store, including ones with missing or unloadable
commits, the ancestor search is total: a node whose commit does not load
contributes no parents (the expand step returns its state unchanged), and
the search returns either the empty result or a digest reachable along
parent links from both start digests. -/
theorem findLCA_never_fails :
    (∀ (commits : String → Option CommitNode) (cur : String) (d : Nat)
        (v q : List (String × Nat)),
      commits cur = none → expand commits cur d v q = (v, q)) ∧
    ∀ (commits : String → Option CommitNode) (fuel : Nat) (a b : String),
      findLCA commits fuel a b = "" ∨
        (Reachable commits a (findLCA commits fuel a b) ∧
         Reachable commits b (findLCA commits fuel a b)) := by
  constructor
  · intro commits cur d v q h
    unfold expand
    rw [h]
  · intro commits fuel a b
    refine lcaLoop_reach commits a b fuel _ _ _ _ ?_ ?_ ?_ ?_ <;>
      intro e he <;> rw [List.mem_singleton.mp he] <;> exact Reachable.refl _


/-- Witness for findLCA_never_fails on the store with no commits at all:
both start digests dangle, expansion of a missing commit is a no-op, and
the search returns the empty digest. -/
theorem findLCA_never_fails_witness :
    expand (fun _ => none) "zz" 0 [] [] = ([], []) ∧
    (findLCA (fun _ => none) 4 "p" "q" = "" ∨
      (Reachable (fun _ => none) "p" (findLCA (fun _ => none) 4 "p" "q") ∧
       Reachable (fun _ => none) "q" (findLCA (fun _ => none) 4 "p" "q"))) :=
  ⟨findLCA_never_fails.1 (fun _ => none) "zz" 0 [] [] rfl,
   findLCA_never_fails.2 (fun _ => none) 4 "p" "q"⟩

theorem diffLoop_eq_specWalk (old new : List String) :
    ∀ (k i j : Nat), old.length - i + (new.length - j) ≤ k →
      diffLoop old new i j =
        (specWalk (List.drop i old) (List.drop j new)).map renderTag := by
  intro k
  induction k with
  | zero =>
    intro i j hk
    have hi : ¬ i < old.length := by omega
    have hj : ¬ j < new.length := by omega
    unfold diffLoop
    rw [dif_neg hi, dif_neg hj]
    rw [List.drop_eq_nil_of_le (by omega), List.drop_eq_nil_of_le (by omega)]
    simp only [specWalk, List.map]
  | succ n ih =>
    intro i j hk
    unfold diffLoop
    by_cases hi : i < old.length
    · rw [dif_pos hi]
      have hdo : List.drop i old = old.get ⟨i, hi⟩ :: List.drop (i + 1) old :=
        List.drop_eq_getElem_cons hi
      by_cases hj : j < new.length
      · rw [dif_pos hj]
        have hdn : List.drop j new = new.get ⟨j, hj⟩ :: List.drop (j + 1) new :=
          List.drop_eq_getElem_cons hj
        rw [hdo, hdn]
        by_cases heq : old.get ⟨i, hi⟩ = new.get ⟨j, hj⟩
        · rw [if_pos heq]
          simp only [specWalk, if_pos heq, List.map, renderTag]
          rw [ih (i + 1) (j + 1) (by omega)]
        · rw [if_neg heq]
          simp only [specWalk, if_neg heq, List.map, renderTag]
          rw [ih (i + 1) (j + 1) (by omega)]
      · rw [dif_neg hj]
        have hnil : List.drop j new = [] := List.drop_eq_nil_of_le (by omega)
        rw [hdo, hnil]
        simp only [specWalk, List.map, renderTag]
        rw [ih (i + 1) j (by omega), hnil]
    · rw [dif_neg hi]
      have hnil : List.drop i old = [] := List.drop_eq_nil_of_le (by omega)
      by_cases hj : j < new.length
      · rw [dif_pos hj]
        have hdn : List.drop j new = new.get ⟨j, hj⟩ :: List.drop (j + 1) new :=
          List.drop_eq_getElem_cons hj
        rw [hnil, hdn]
        simp only [specWalk, List.map, renderTag]
        rw [ih i (j + 1) (by omega), hnil]
      · rw [dif_neg hj]
        rw [hnil, List.drop_eq_nil_of_le (by omega)]
        simp only [specWalk, List.map]

/-- C5: for every pair of old and new contents and every filename, the
printDiff output is exactly the optional two-line header (old side labelled
with the a/ form, new side with the b/ form) followed by the rendering of
the greedy two-cursor reference walk over the line-split texts, and the
closing blank line. -/
theorem printDiff_matches_spec_walk (oldContent newContent filename : String) :
    printDiff oldContent newContent filename =
      (if filename = "" then []
       else ["--- a/" ++ filename, "+++ b/" ++ filename]) ++
      ((specWalk (splitLines oldContent) (splitLines newContent)).map renderTag)
      ++ [""] := by
  simp only [printDiff]
  rw [diffLoop_eq_specWalk (splitLines oldContent) (splitLines newContent)
    ((splitLines oldContent).length + (splitLines newContent).length) 0 0 (by omega)]
  rw [List.drop_zero, List.drop_zero]

end MiniGit
